import Mathlib

/-!
Verification of the split table-batched embedding (TBE) forward kernel
interface declared in `fbgemm_gpu/hip_kernel/split_tbe_fwd.hip.hpp`.

The header declares four kernel entry points (two storage precisions ×
two weighting variants) via the macro `SPLIT_TBE_FWD_KERNEL`; the kernel
bodies are not part of this fragment, so the gather-reduce computation is
modelled from the specification, while the entry-point signatures are
embedded directly from the declarations in the header.

Numeric values are modelled over `ℚ` (exact arithmetic); device buffers
are modelled as total functions from `ℤ` addresses, matching C pointer
arithmetic with 64-bit offsets.
-/

namespace SplitTbeFwd

/-- Modelled from the spec: the pooling-mode selector choosing how rows
within a bag combine (sum, mean, or max).  In the declaration it is the
scalar `pooling_mode` parameter. -/
inductive PoolingMode
  | sum
  | mean
  | max
deriving DecidableEq, Repr

/-- Modelled from the spec: the kernel inputs shared by all four entry
points (the per-index weight sequence of the weighted variants is passed
separately).  Buffers are functions from addresses; the four scalar
counts mirror the `uint32_t` parameters of the declaration. -/
structure KernelArgs where
  p_emb_table : ℤ → ℚ
  p_indices : ℤ → ℤ
  p_offsets : ℤ → ℤ
  D_offsets : ℤ → ℤ
  weight_offsets : ℤ → ℤ
  emb_dim : ℕ
  batch : ℕ
  num_rows : ℕ
  num_tables : ℕ

/-- Modelled from the spec: the embedding dimension of table `t`, given by
consecutive entries of the cumulative dimension-offset sequence
`D_offsets` (`D_offsets[t+1] - D_offsets[t]`). -/
def tableDim (a : KernelArgs) (t : ℕ) : ℤ :=
  a.D_offsets ((t : ℤ) + 1) - a.D_offsets (t : ℤ)

/-- Modelled from the spec: start of the index range of bag `b` of table
`t` in the flattened index sequence (CSR-style offsets, one group of
`batch` bags per table). -/
def bagStart (a : KernelArgs) (t b : ℕ) : ℤ :=
  a.p_offsets ((t * a.batch + b : ℕ) : ℤ)

/-- Modelled from the spec: one-past-the-end of the index range of bag `b`
of table `t`. -/
def bagEnd (a : KernelArgs) (t b : ℕ) : ℤ :=
  a.p_offsets ((t * a.batch + b + 1 : ℕ) : ℤ)

/-- Modelled from the spec: the bag length (number of gathered rows). -/
def bagLen (a : KernelArgs) (t b : ℕ) : ℕ :=
  (bagEnd a t b - bagStart a t b).toNat

/-- Modelled from the spec: the positions in the flattened index sequence
belonging to bag `b` of table `t`, in gather order. -/
def bagPositions (a : KernelArgs) (t b : ℕ) : List ℤ :=
  (List.range (bagLen a t b)).map (fun k : ℕ => bagStart a t b + (k : ℤ))

/-- Modelled from the spec: the storage address of element `d` of the row
selected by index-sequence position `p`: the table's storage offset plus
index × row dimension, plus the element offset. -/
def rowAddr (a : KernelArgs) (t : ℕ) (idx : ℤ) (d : ℕ) : ℤ :=
  a.weight_offsets (t : ℤ) + idx * tableDim a t + (d : ℤ)

/-- Modelled from the spec: the value gathered for element `d` from the
row addressed by index-sequence position `p` of table `t` (upconverted to
the accumulation precision on read; values are exact here). -/
def gather (a : KernelArgs) (t : ℕ) (p : ℤ) (d : ℕ) : ℚ :=
  a.p_emb_table (rowAddr a t (a.p_indices p) d)

/-- Modelled from the spec: running addition over the bag's gathered rows
(unweighted variant), element `d`. -/
def sumUnweighted (a : KernelArgs) (t b d : ℕ) : ℚ :=
  (bagPositions a t b).foldl (fun acc p => acc + gather a t p d) 0

/-- Modelled from the spec: running addition over the bag's gathered rows,
each multiplied element-wise by its per-index scalar weight before
accumulation (weighted variant), element `d`. -/
def sumWeighted (a : KernelArgs) (w : ℤ → ℚ) (t b d : ℕ) : ℚ :=
  (bagPositions a t b).foldl (fun acc p => acc + w p * gather a t p d) 0

/-- Modelled from the spec: element-wise running maximum over the bag's
gathered rows, seeded with the first row; an empty bag yields zero by
convention (unweighted variant). -/
def maxUnweighted (a : KernelArgs) (t b d : ℕ) : ℚ :=
  match bagPositions a t b with
  | [] => 0
  | p :: ps => ps.foldl (fun acc q => Max.max acc (gather a t q d)) (gather a t p d)

/-- Modelled from the spec: element-wise running maximum over the bag's
weight-scaled gathered rows, seeded with the first scaled row; an empty
bag yields zero by convention (weighted variant). -/
def maxWeighted (a : KernelArgs) (w : ℤ → ℚ) (t b d : ℕ) : ℚ :=
  match bagPositions a t b with
  | [] => 0
  | p :: ps => ps.foldl (fun acc q => Max.max acc (w q * gather a t q d)) (w p * gather a t p d)

/-- Modelled from the spec: the pooled output element `d` of the vector
for `(table t, bag b)` computed by the unweighted kernel variant: sum is
running addition, mean divides the sum by the bag length with an empty
bag yielding zero (never a division fault), max is the seeded running
maximum. -/
def pooledUnweighted (a : KernelArgs) (mode : PoolingMode) (t b d : ℕ) : ℚ :=
  match mode with
  | .sum => sumUnweighted a t b d
  | .mean =>
      if bagLen a t b = 0 then 0
      else sumUnweighted a t b d / (bagLen a t b : ℚ)
  | .max => maxUnweighted a t b d

/-- Modelled from the spec: the pooled output element `d` of the vector
for `(table t, bag b)` computed by the weighted kernel variant, with
per-index weight sequence `w`. -/
def pooledWeighted (a : KernelArgs) (w : ℤ → ℚ) (mode : PoolingMode) (t b d : ℕ) : ℚ :=
  match mode with
  | .sum => sumWeighted a w t b d
  | .mean =>
      if bagLen a t b = 0 then 0
      else sumWeighted a w t b d / (bagLen a t b : ℚ)
  | .max => maxWeighted a w t b d

/-- Modelled from the spec: total pooled dimension across tables, the last
entry of the cumulative dimension-offset sequence. -/
def totalDim (a : KernelArgs) : ℤ :=
  a.D_offsets (a.num_tables : ℤ)

/-- Modelled from the spec: output-buffer position of element `d` of the
pooled vector for `(bag b, table t)`: row `b` of the dense output of
width `totalDim`, at the table's cumulative dimension offset. -/
def outPos (a : KernelArgs) (b t d : ℕ) : ℤ :=
  (b : ℤ) * totalDim a + a.D_offsets (t : ℤ) + (d : ℤ)

/-- Modelled from the spec: the list of output positions the kernel writes
in one launch, one per element of each `(bag, table)` pooled vector. -/
def writePositions (a : KernelArgs) : List ℤ :=
  (List.range a.batch).flatMap fun b =>
    (List.range a.num_tables).flatMap fun t =>
      (List.range (tableDim a t).toNat).map fun d => outPos a b t d

/-- The `(bag, table, element)` triples of one launch, in the order the
write positions are enumerated. -/
def launchTriples (a : KernelArgs) : List (ℕ × ℕ × ℕ) :=
  (List.range a.batch).flatMap fun b =>
    (List.range a.num_tables).flatMap fun t =>
      (List.range (tableDim a t).toNat).map fun d => (b, t, d)

/-- Modelled from the spec: the full list of (position, value) writes the
weighted kernel performs in one launch. -/
def kernelWrites (a : KernelArgs) (w : ℤ → ℚ) (mode : PoolingMode) : List (ℤ × ℚ) :=
  (List.range a.batch).flatMap fun b =>
    (List.range a.num_tables).flatMap fun t =>
      (List.range (tableDim a t).toNat).map fun d =>
        (outPos a b t d, pooledWeighted a w mode t b d)

/-- Apply a list of writes to an output buffer, in order. -/
def applyWrites (out : ℤ → ℚ) (ws : List (ℤ × ℚ)) : ℤ → ℚ :=
  ws.foldl (fun f pv => Function.update f pv.1 pv.2) out

/-- Modelled from the spec: device-visible state of one launch — the
read-only inputs, the weight sequence, the pooling mode, and the output
buffer. -/
structure DeviceState where
  args : KernelArgs
  weights : ℤ → ℚ
  mode : PoolingMode
  out : ℤ → ℚ

/-- Modelled from the spec: a complete launch of the weighted kernel — a
pure function of the inputs that only replaces output-buffer contents at
the written positions and mutates nothing else. -/
def launchWeighted (s : DeviceState) : DeviceState :=
  ⟨s.args, s.weights, s.mode, applyWrites s.out (kernelWrites s.args s.weights s.mode)⟩

/-- Precondition (from the spec): the bag-offset sequence starts at 0. -/
def offsetsZero (a : KernelArgs) : Prop :=
  a.p_offsets 0 = 0

/-- Precondition (from the spec): the bag-offset sequence is
non-decreasing over the `num_tables * batch` bags of the launch. -/
def offsetsMono (a : KernelArgs) : Prop :=
  ∀ i : ℕ, i < a.num_tables * a.batch → a.p_offsets (i : ℤ) ≤ a.p_offsets ((i : ℤ) + 1)

/-- Precondition (from the spec): every index value in the used portion of
the flattened index sequence lies in `[0, num_rows)`. -/
def indicesInRange (a : KernelArgs) : Prop :=
  ∀ p : ℕ, p < (a.p_offsets ((a.num_tables * a.batch : ℕ) : ℤ)).toNat →
    0 ≤ a.p_indices (p : ℤ) ∧ a.p_indices (p : ℤ) < (a.num_rows : ℤ)

/-- Precondition (from the spec): the cumulative dimension-offset sequence
starts at 0 and is non-decreasing over the launch's tables. -/
def dOffsetsValid (a : KernelArgs) : Prop :=
  a.D_offsets 0 = 0 ∧
    ∀ t : ℕ, t < a.num_tables → a.D_offsets (t : ℤ) ≤ a.D_offsets ((t : ℤ) + 1)

/-! ### Entry-point signatures, embedded from the header's declarations -/

/-- Scalar C element types appearing in the declarations. -/
inductive CScalar
  | f32
  | f16
  | i32
  | i64
  | u32
deriving DecidableEq, Repr

/-- C parameter types appearing in the declarations: by-value scalars,
pointers to const data, and mutable pointers. -/
inductive CType
  | scalar : CScalar → CType
  | constPtr : CScalar → CType
  | mutPtr : CScalar → CType
deriving DecidableEq, Repr

/-- One formal parameter of a kernel declaration. -/
structure CParam where
  name : String
  type : CType
deriving DecidableEq, Repr

/-- One kernel entry-point declaration. -/
structure KernelDecl where
  name : String
  params : List CParam
deriving DecidableEq, Repr

/-- The two storage precisions the macro is instantiated at. -/
inductive EmbPrec
  | fp16
  | fp32
deriving DecidableEq, Repr

/-- The `emb_prec` token pasted into the kernel name by the macro. -/
def precSuffix : EmbPrec → String
  | .fp16 => "fp16"
  | .fp32 => "fp32"

/-- The `emb_type` storage element type of each macro instantiation
(`half` for fp16, `float` for fp32). -/
def embScalarOf : EmbPrec → CScalar
  | .fp16 => .f16
  | .fp32 => .f32

/-- The unweighted entry point declared by `SPLIT_TBE_FWD_KERNEL`,
transcribed parameter by parameter from the header. -/
def unweightedDecl (p : EmbPrec) : KernelDecl :=
  ⟨"split_tbe_fwd_unweighted_hip_kernel_" ++ precSuffix p,
    [⟨"p_output", .mutPtr .f32⟩,
     ⟨"p_emb_table", .constPtr (embScalarOf p)⟩,
     ⟨"p_indices", .constPtr .i64⟩,
     ⟨"p_offsets", .constPtr .i64⟩,
     ⟨"pooling_mode", .scalar .i64⟩,
     ⟨"D_offsets", .constPtr .i32⟩,
     ⟨"weight_offsets", .constPtr .i64⟩,
     ⟨"emb_dim", .scalar .u32⟩,
     ⟨"batch", .scalar .u32⟩,
     ⟨"num_rows", .scalar .u32⟩,
     ⟨"num_tables", .scalar .u32⟩]⟩

/-- The weighted entry point declared by `SPLIT_TBE_FWD_KERNEL`,
transcribed parameter by parameter from the header. -/
def weightedDecl (p : EmbPrec) : KernelDecl :=
  ⟨"split_tbe_fwd_weighted_hip_kernel_" ++ precSuffix p,
    [⟨"p_output", .mutPtr .f32⟩,
     ⟨"p_emb_table", .constPtr (embScalarOf p)⟩,
     ⟨"p_indices", .constPtr .i64⟩,
     ⟨"p_offsets", .constPtr .i64⟩,
     ⟨"pooling_mode", .scalar .i64⟩,
     ⟨"D_offsets", .constPtr .i32⟩,
     ⟨"weight_offsets", .constPtr .i64⟩,
     ⟨"p_indice_weights", .constPtr .f32⟩,
     ⟨"emb_dim", .scalar .u32⟩,
     ⟨"batch", .scalar .u32⟩,
     ⟨"num_rows", .scalar .u32⟩,
     ⟨"num_tables", .scalar .u32⟩]⟩

/-- All entry points the header declares, in declaration order: the macro
declares the unweighted then the weighted kernel, and is instantiated for
fp16 then fp32. -/
def declaredKernels : List KernelDecl :=
  [unweightedDecl .fp16, weightedDecl .fp16,
   unweightedDecl .fp32, weightedDecl .fp32]

/-- Type of the parameter named `n` in declaration `k`, if present. -/
def paramType (k : KernelDecl) (n : String) : Option CType :=
  (k.params.find? fun q => q.name = n).map CParam.type

/-- The set of integer values representable by an integer C scalar type
(two's complement for the signed types). -/
def intFits : CScalar → ℤ → Prop
  | .i32, v => -(2 ^ 31) ≤ v ∧ v < 2 ^ 31
  | .i64, v => -(2 ^ 63) ≤ v ∧ v < 2 ^ 63
  | .u32, v => 0 ≤ v ∧ v < 2 ^ 32
  | _, _ => False

instance (s : CScalar) (v : ℤ) : Decidable (intFits s v) := by
  cases s <;> simp only [intFits] <;> infer_instance

/-! ### Precision flow of the accumulation, modelled from the spec -/

/-- Modelled from the spec: a floating-point precision tag. -/
inductive PrecTag
  | half
  | single
deriving DecidableEq, Repr

/-- Modelled from the spec: precision of the elements stored in the
embedding table of each variant. -/
def storageTag : EmbPrec → PrecTag
  | .fp16 => .half
  | .fp32 => .single

/-- Modelled from the spec: each table element is upconverted to single
precision on read, whatever the storage precision. -/
def upconvertOnRead : PrecTag → PrecTag :=
  fun _ => .single

/-- Modelled from the spec: precision of the result of a floating
addition — the wider of the operand precisions. -/
def addTag : PrecTag → PrecTag → PrecTag
  | .single, _ => .single
  | _, .single => .single
  | _, _ => .half

/-- Modelled from the spec: precision of the accumulator after folding a
bag of `n` rows read from storage of precision `ep` into a
single-precision zero accumulator, each row upconverted on read. -/
def accumTag (ep : EmbPrec) (n : ℕ) : PrecTag :=
  (List.replicate n (upconvertOnRead (storageTag ep))).foldl addTag .single

instance (a : KernelArgs) : Decidable (offsetsZero a) := by
  unfold offsetsZero; infer_instance

instance (a : KernelArgs) : Decidable (offsetsMono a) := by
  unfold offsetsMono; infer_instance

instance (a : KernelArgs) : Decidable (indicesInRange a) := by
  unfold indicesInRange; infer_instance

instance (a : KernelArgs) : Decidable (dOffsetsValid a) := by
  unfold dOffsetsValid; infer_instance

/-! ### Concrete launch instances used to witness the theorems -/

/-- Example storage: the element at address `addr` holds `addr + 1`. -/
def exTable : ℤ → ℚ :=
  fun addr => (addr : ℚ) + 1

/-- Example index sequence `[0, 1, 2]`. -/
def exIndices : ℤ → ℤ :=
  fun p => if p = 0 then 0 else if p = 1 then 1 else if p = 2 then 2 else 0

/-- Example bag-offset sequence `[0, 2, 3]`: bag 0 holds positions 0 and 1,
bag 1 holds position 2. -/
def exOffsets : ℤ → ℤ :=
  fun i => if i ≤ 0 then 0 else if i = 1 then 2 else 3

/-- Example dimension-offset sequence `[0, 4]` for one table of
dimension 4. -/
def exDOffsets : ℤ → ℤ :=
  fun t => if t ≤ 0 then 0 else 4

/-- Example storage-offset sequence: the single table starts at 0. -/
def exWOffsets : ℤ → ℤ :=
  fun _ => 0

/-- Example launch: one table of dimension 4 with 3 rows, two bags. -/
def exArgs : KernelArgs :=
  ⟨exTable, exIndices, exOffsets, exDOffsets, exWOffsets, 4, 2, 3, 1⟩

/-- Example per-index weight sequence `[1/2, 2, 1]`. -/
def exW : ℤ → ℚ :=
  fun p => if p = 0 then 1 / 2 else if p = 1 then 2 else 1

/-- Example index sequence for the two-table launch. -/
def exIndices2 : ℤ → ℤ :=
  fun p => if p < 0 then 0 else if p < 6 then p % 3 else 0

/-- Example bag-offset sequence `[0, 2, 3, 5, 6]` for the two-table
launch (four bags). -/
def exOffsets2 : ℤ → ℤ :=
  fun i => if i ≤ 0 then 0 else if i = 1 then 2 else if i = 2 then 3
    else if i = 3 then 5 else 6

/-- Example dimension-offset sequence `[0, 4, 12]`: two tables of
dimensions 4 and 8. -/
def exDOffsets2 : ℤ → ℤ :=
  fun t => if t ≤ 0 then 0 else if t = 1 then 4 else 12

/-- Example storage-offset sequence: table 0 starts at 0 (3 rows × 4),
table 1 starts at 12. -/
def exWOffsets2 : ℤ → ℤ :=
  fun t => if t ≤ 0 then 0 else 12

/-- Example launch: two tables of dimensions 4 and 8, each with 3 rows,
two bags per table. -/
def exArgs2 : KernelArgs :=
  ⟨exTable, exIndices2, exOffsets2, exDOffsets2, exWOffsets2, 8, 2, 3, 2⟩

/-- Example device state for the two-table launch, with unit weights and
an all-zero initial output buffer. -/
def exState2 : DeviceState :=
  ⟨exArgs2, fun _ => 1, .sum, fun _ => 0⟩

/-! ### Helper lemmas -/

theorem foldl_add_eq (f : ℤ → ℚ) (l : List ℤ) (c : ℚ) :
    l.foldl (fun acc p => acc + f p) c = c + (l.map f).sum := by
  induction l generalizing c with
  | nil => simp
  | cons hd tl ih => simp [ih, add_assoc]

theorem sumWeighted_eq_sum (a : KernelArgs) (w : ℤ → ℚ) (t b d : ℕ) :
    sumWeighted a w t b d
      = ((bagPositions a t b).map (fun p => w p * gather a t p d)).sum := by
  simpa [sumWeighted] using
    foldl_add_eq (fun p => w p * gather a t p d) (bagPositions a t b) 0

theorem sumUnweighted_eq_sum (a : KernelArgs) (t b d : ℕ) :
    sumUnweighted a t b d
      = ((bagPositions a t b).map (fun p => gather a t p d)).sum := by
  simpa [sumUnweighted] using
    foldl_add_eq (fun p => gather a t p d) (bagPositions a t b) 0

theorem le_foldl_max (f : ℤ → ℚ) (l : List ℤ) (c : ℚ) :
    c ≤ l.foldl (fun acc q => Max.max acc (f q)) c := by
  induction l generalizing c with
  | nil => exact le_refl c
  | cons hd tl ih =>
      exact le_trans (le_max_left c (f hd)) (ih (Max.max c (f hd)))

theorem foldl_max_mem (f : ℤ → ℚ) (l : List ℤ) (c : ℚ) :
    l.foldl (fun acc q => Max.max acc (f q)) c = c ∨
      l.foldl (fun acc q => Max.max acc (f q)) c ∈ l.map f := by
  induction l generalizing c with
  | nil => exact Or.inl rfl
  | cons hd tl ih =>
      rcases ih (Max.max c (f hd)) with h | h
      · rcases max_choice c (f hd) with h2 | h2
        · exact Or.inl (by rw [List.foldl_cons, h, h2])
        · refine Or.inr ?_
          rw [List.map_cons, List.foldl_cons, h, h2]
          exact List.mem_cons_self _ _
      · refine Or.inr ?_
        rw [List.map_cons, List.foldl_cons]
        exact List.mem_cons_of_mem _ h

theorem foldl_max_ge (f : ℤ → ℚ) (l : List ℤ) (c : ℚ) (x : ℤ) :
    x ∈ l → f x ≤ l.foldl (fun acc q => Max.max acc (f q)) c := by
  induction l generalizing c with
  | nil => intro hx; cases hx
  | cons hd tl ih =>
      intro hx
      rw [List.foldl_cons]
      rcases List.mem_cons.mp hx with h | h
      · subst h
        exact le_trans (le_max_right c (f x)) (le_foldl_max f tl _)
      · exact ih _ h

theorem bagPositions_length (a : KernelArgs) (t b : ℕ) :
    (bagPositions a t b).length = bagLen a t b := by
  simp [bagPositions]

theorem bagPositions_eq_cons (a : KernelArgs) (t b : ℕ) (h : bagLen a t b ≠ 0) :
    ∃ ps, bagPositions a t b = bagStart a t b :: ps := by
  rcases Nat.exists_eq_succ_of_ne_zero h with ⟨n, hn⟩
  refine ⟨((List.range n).map Nat.succ).map (fun k : ℕ => bagStart a t b + (k : ℤ)), ?_⟩
  unfold bagPositions
  rw [hn, List.range_succ_eq_map, List.map_cons]
  simp

theorem mem_bagPositions (a : KernelArgs) (t b : ℕ) {p : ℤ}
    (hp : p ∈ bagPositions a t b) :
    bagStart a t b ≤ p ∧ p < bagStart a t b + (bagLen a t b : ℤ) := by
  unfold bagPositions at hp
  rcases List.mem_map.mp hp with ⟨k, hk, rfl⟩
  have := List.mem_range.mp hk
  omega

theorem p_offsets_chain (a : KernelArgs) (hm : offsetsMono a) :
    ∀ i j : ℕ, i ≤ j → j ≤ a.num_tables * a.batch →
      a.p_offsets (i : ℤ) ≤ a.p_offsets (j : ℤ) := by
  intro i j hij
  induction j, hij using Nat.le_induction with
  | base => intro _; exact le_refl _
  | succ n hn ih =>
      intro hbound
      have h1 : a.p_offsets (n : ℤ) ≤ a.p_offsets ((n : ℤ) + 1) :=
        hm n (by omega)
      have h2 : ((n + 1 : ℕ) : ℤ) = (n : ℤ) + 1 := by push_cast; ring
      rw [h2]
      exact le_trans (ih (by omega)) h1

theorem d_offsets_chain (a : KernelArgs) (h : dOffsetsValid a) :
    ∀ i j : ℕ, i ≤ j → j ≤ a.num_tables →
      a.D_offsets (i : ℤ) ≤ a.D_offsets (j : ℤ) := by
  intro i j hij
  induction j, hij using Nat.le_induction with
  | base => intro _; exact le_refl _
  | succ n hn ih =>
      intro hbound
      have h1 : a.D_offsets (n : ℤ) ≤ a.D_offsets ((n : ℤ) + 1) :=
        h.2 n (by omega)
      have h2 : ((n + 1 : ℕ) : ℤ) = (n : ℤ) + 1 := by push_cast; ring
      rw [h2]
      exact le_trans (ih (by omega)) h1

/-! ### Claims -/

/-- Claim C1: for every table and bag, under the preconditions that the
bag-offset sequence is monotone with first entry 0 and every index lies
in `[0, num_rows)`, the sum-pooling output equals the exact element-wise
sum of the gathered rows (weight-scaled in the weighted variant), and the
accumulated value is the same for any gather order of the bag's
positions. -/
theorem sum_pooling_exact_and_order_independent
    (a : KernelArgs) (w : ℤ → ℚ)
    (_h0 : offsetsZero a) (_hm : offsetsMono a) (_hi : indicesInRange a)
    (t b d : ℕ) (l : List ℤ) (hl : l.Perm (bagPositions a t b)) :
    pooledWeighted a w .sum t b d
        = ((bagPositions a t b).map (fun p => w p * gather a t p d)).sum ∧
      pooledUnweighted a .sum t b d
        = ((bagPositions a t b).map (fun p => gather a t p d)).sum ∧
      l.foldl (fun acc p => acc + w p * gather a t p d) 0
        = pooledWeighted a w .sum t b d := by
  refine ⟨sumWeighted_eq_sum a w t b d, sumUnweighted_eq_sum a t b d, ?_⟩
  have h1 : pooledWeighted a w .sum t b d = sumWeighted a w t b d := rfl
  rw [h1, sumWeighted_eq_sum, foldl_add_eq]
  simpa using (hl.map (fun p => w p * gather a t p d)).sum_eq

/-- Witness for C1 at a concrete launch: one table of dimension 4, bag 0
holding indices 0 and 1, gathered in reversed order `[1, 0]`. -/
theorem sum_pooling_exact_and_order_independent_witness :
    offsetsZero exArgs ∧ offsetsMono exArgs ∧ indicesInRange exArgs ∧
      ([(1 : ℤ), 0]).Perm (bagPositions exArgs 0 0) ∧
      pooledWeighted exArgs exW .sum 0 0 1
        = ((bagPositions exArgs 0 0).map (fun p => exW p * gather exArgs 0 p 1)).sum :=
  ⟨by decide, by decide, by decide, by decide,
    (sum_pooling_exact_and_order_independent exArgs exW (by decide) (by decide)
      (by decide) 0 0 1 [1, 0] (by decide)).1⟩

/-- Claim C2: for every bag, mean pooling equals sum pooling divided by
the bag length when the bag is non-empty, and is exactly zero when the
bag is empty; the empty case takes the guarded zero branch, not a
division. -/
theorem mean_pooling_sum_div_len_empty_zero
    (a : KernelArgs) (w : ℤ → ℚ) (t b d : ℕ) :
    (bagLen a t b ≠ 0 →
        pooledUnweighted a .mean t b d
            = pooledUnweighted a .sum t b d / (bagLen a t b : ℚ) ∧
          pooledWeighted a w .mean t b d
            = pooledWeighted a w .sum t b d / (bagLen a t b : ℚ)) ∧
      (bagLen a t b = 0 →
        pooledUnweighted a .mean t b d = 0 ∧
          pooledWeighted a w .mean t b d = 0) := by
  constructor
  · intro h
    constructor
    · show (if bagLen a t b = 0 then 0
          else sumUnweighted a t b d / (bagLen a t b : ℚ)) = _
      rw [if_neg h]
      rfl
    · show (if bagLen a t b = 0 then 0
          else sumWeighted a w t b d / (bagLen a t b : ℚ)) = _
      rw [if_neg h]
      rfl
  · intro h
    constructor
    · show (if bagLen a t b = 0 then 0
          else sumUnweighted a t b d / (bagLen a t b : ℚ)) = 0
      rw [if_pos h]
    · show (if bagLen a t b = 0 then 0
          else sumWeighted a w t b d / (bagLen a t b : ℚ)) = 0
      rw [if_pos h]

/-- Witness for C2 at a concrete launch: bag 0 of the example is
non-empty (it has 2 indices). -/
theorem mean_pooling_sum_div_len_empty_zero_witness :
    bagLen exArgs 0 0 ≠ 0 ∧
      pooledUnweighted exArgs .mean 0 0 1
        = pooledUnweighted exArgs .sum 0 0 1 / ((bagLen exArgs 0 0 : ℕ) : ℚ) :=
  ⟨by decide,
    ((mean_pooling_sum_div_len_empty_zero exArgs exW 0 0 1).1 (by decide)).1⟩

/-- Claim C3: for every non-empty bag, the max-pooling output is attained
by one of the bag's gathered rows and bounds all of them from above
(element-wise maximum), and it is computed by a running maximum seeded
from the first gathered row; an empty bag yields zero by convention. -/
theorem max_pooling_elementwise_max
    (a : KernelArgs) (t b d : ℕ) :
    (bagLen a t b = 0 → pooledUnweighted a .max t b d = 0) ∧
      (bagLen a t b ≠ 0 →
        pooledUnweighted a .max t b d
            ∈ (bagPositions a t b).map (fun p => gather a t p d) ∧
          (∀ x ∈ (bagPositions a t b).map (fun p => gather a t p d),
              x ≤ pooledUnweighted a .max t b d) ∧
          ∀ ps, bagPositions a t b = bagStart a t b :: ps →
            pooledUnweighted a .max t b d
              = ps.foldl (fun acc q => Max.max acc (gather a t q d))
                  (gather a t (bagStart a t b) d)) := by
  constructor
  · intro h
    have hnil : bagPositions a t b = [] := by
      unfold bagPositions
      rw [h]
      rfl
    show maxUnweighted a t b d = 0
    unfold maxUnweighted
    rw [hnil]
  · intro h
    obtain ⟨ps, hps⟩ := bagPositions_eq_cons a t b h
    have hred : pooledUnweighted a .max t b d
        = ps.foldl (fun acc q => Max.max acc (gather a t q d))
            (gather a t (bagStart a t b) d) := by
      show maxUnweighted a t b d = _
      unfold maxUnweighted
      rw [hps]
    refine ⟨?_, ?_, ?_⟩
    · rw [hred]
      rcases foldl_max_mem (fun q => gather a t q d) ps (gather a t (bagStart a t b) d)
        with h1 | h1
      · rw [h1, hps, List.map_cons]
        exact List.mem_cons_self _ _
      · rw [hps, List.map_cons]
        exact List.mem_cons_of_mem _ h1
    · intro x hx
      rw [hred]
      rw [hps, List.map_cons] at hx
      rcases List.mem_cons.mp hx with h1 | h1
      · rw [h1]
        exact le_foldl_max _ ps _
      · rcases List.mem_map.mp h1 with ⟨q, hq, rfl⟩
        exact foldl_max_ge _ ps _ q hq
    · intro ps2 hps2
      rw [hps] at hps2
      injection hps2 with _ h2
      rw [← h2]
      exact hred

/-- Witness for C3 at a concrete launch: bag 0 of the example is
non-empty and its max-pooled value is one of the gathered values. -/
theorem max_pooling_elementwise_max_witness :
    bagLen exArgs 0 0 ≠ 0 ∧
      pooledUnweighted exArgs .max 0 0 1
        ∈ (bagPositions exArgs 0 0).map (fun p => gather exArgs 0 p 1) :=
  ⟨by decide, ((max_pooling_elementwise_max exArgs 0 0 1).2 (by decide)).1⟩

/-- Claim C4: for every input, the weighted kernel variant run with a
weight sequence that is constantly 1 produces exactly the same pooled
output as the unweighted variant, for every pooling mode (the model's
arithmetic is exact, so the tolerance is zero). -/
theorem weighted_ones_eq_unweighted
    (a : KernelArgs) (m : PoolingMode) (t b d : ℕ) :
    pooledWeighted a (fun _ => 1) m t b d = pooledUnweighted a m t b d := by
  cases m <;>
    simp [pooledWeighted, pooledUnweighted, sumWeighted, sumUnweighted,
      maxWeighted, maxUnweighted, one_mul]

/-- Accumulating any number of single-precision values into a
single-precision accumulator stays single precision. -/
theorem foldl_addTag_single (n : ℕ) :
    (List.replicate n PrecTag.single).foldl addTag .single = .single := by
  induction n with
  | zero => rfl
  | succ n ih =>
      rw [List.replicate_succ, List.foldl_cons]
      exact ih

/-- Claim C5: for both kernel variants and both storage precisions, the
output buffer parameter is a single-precision `float *`; the storage
element type is `half` for the fp16 variants and `float` for the fp32
variants; every table element is upconverted to single precision on
read; and the accumulator stays single precision for a bag of any
length, identically for both storage precisions. -/
theorem accumulation_in_single_precision :
    (∀ k ∈ declaredKernels,
        paramType k "p_output" = some (CType.mutPtr .f32)) ∧
      paramType (unweightedDecl .fp16) "p_emb_table" = some (CType.constPtr .f16) ∧
      paramType (weightedDecl .fp16) "p_emb_table" = some (CType.constPtr .f16) ∧
      paramType (unweightedDecl .fp32) "p_emb_table" = some (CType.constPtr .f32) ∧
      paramType (weightedDecl .fp32) "p_emb_table" = some (CType.constPtr .f32) ∧
      (∀ ep, upconvertOnRead (storageTag ep) = .single) ∧
      ∀ ep n, accumTag ep n = .single := by
  refine ⟨by decide, by decide, by decide, by decide, by decide,
    fun ep => by cases ep <;> rfl, fun ep n => ?_⟩
  have h : upconvertOnRead (storageTag ep) = .single := by cases ep <;> rfl
  unfold accumTag
  rw [h]
  exact foldl_addTag_single n

/-- Witness for C5: the fp16 unweighted entry point writes a
single-precision output buffer, and a 3-row fp16 accumulation ends
single precision. -/
theorem accumulation_in_single_precision_witness :
    paramType (unweightedDecl .fp16) "p_output" = some (CType.mutPtr .f32) ∧
      accumTag .fp16 3 = .single :=
  ⟨accumulation_in_single_precision.1 (unweightedDecl .fp16) (by decide),
    accumulation_in_single_precision.2.2.2.2.2.2 .fp16 3⟩

/-- Claim C8: the header declares exactly four entry points — the cross
product of the two storage precisions with the two weighting variants —
with distinct names; each weighted variant's parameter list is the
unweighted one with a single per-index weight-sequence parameter
inserted after the storage offsets; and each variant accepts the output
buffer, embedding storage, index sequence, bag-offset sequence,
pooling-mode selector, dimension-offset sequence, storage-offset
sequence, and the four scalar counts. -/
theorem four_entry_points_cross_product :
    declaredKernels.length = 4 ∧
      declaredKernels.map KernelDecl.name =
        ["split_tbe_fwd_unweighted_hip_kernel_fp16",
         "split_tbe_fwd_weighted_hip_kernel_fp16",
         "split_tbe_fwd_unweighted_hip_kernel_fp32",
         "split_tbe_fwd_weighted_hip_kernel_fp32"] ∧
      (declaredKernels.map KernelDecl.name).Nodup ∧
      (weightedDecl .fp16).params =
        (unweightedDecl .fp16).params.take 7 ++
          [⟨"p_indice_weights", CType.constPtr .f32⟩] ++
          (unweightedDecl .fp16).params.drop 7 ∧
      (weightedDecl .fp32).params =
        (unweightedDecl .fp32).params.take 7 ++
          [⟨"p_indice_weights", CType.constPtr .f32⟩] ++
          (unweightedDecl .fp32).params.drop 7 ∧
      (unweightedDecl .fp16).params.map CParam.name =
        ["p_output", "p_emb_table", "p_indices", "p_offsets", "pooling_mode",
         "D_offsets", "weight_offsets", "emb_dim", "batch", "num_rows",
         "num_tables"] ∧
      (unweightedDecl .fp32).params.map CParam.name =
        ["p_output", "p_emb_table", "p_indices", "p_offsets", "pooling_mode",
         "D_offsets", "weight_offsets", "emb_dim", "batch", "num_rows",
         "num_tables"] := by
  refine ⟨rfl, rfl, by decide, by decide, by decide, rfl, rfl⟩

/-- Claim C9: in every declared entry point the index and bag-offset
sequences are 64-bit signed, the dimension-offset entries are 32-bit
signed, and the four scalar counts are 32-bit unsigned; hence every
value stored in a dimension-offset entry lies in the signed 32-bit
range, while an index value can need 64 bits (witnessed by `2^31`). -/
theorem index_offset_scalar_widths :
    (∀ k ∈ declaredKernels,
        paramType k "p_indices" = some (CType.constPtr .i64) ∧
          paramType k "p_offsets" = some (CType.constPtr .i64) ∧
          paramType k "D_offsets" = some (CType.constPtr .i32) ∧
          paramType k "emb_dim" = some (CType.scalar .u32) ∧
          paramType k "batch" = some (CType.scalar .u32) ∧
          paramType k "num_rows" = some (CType.scalar .u32) ∧
          paramType k "num_tables" = some (CType.scalar .u32)) ∧
      (∀ v : ℤ, intFits .i32 v ↔ -(2 ^ 31) ≤ v ∧ v < 2 ^ 31) ∧
      (∀ v : ℤ, intFits .i32 v → intFits .i64 v) ∧
      intFits .i64 (2 ^ 31) ∧ ¬ intFits .i32 (2 ^ 31) := by
  refine ⟨by decide, fun v => Iff.rfl, fun v h => ?_, by decide, by decide⟩
  simp only [intFits] at h ⊢
  omega

/-- Witness for C9: the fp32 weighted entry point takes 32-bit signed
dimension offsets, and `2^31` needs 64 bits. -/
theorem index_offset_scalar_widths_witness :
    paramType (weightedDecl .fp32) "D_offsets" = some (CType.constPtr .i32) ∧
      intFits .i64 (2 ^ 31) ∧ ¬ intFits .i32 (2 ^ 31) :=
  ⟨(index_offset_scalar_widths.1 (weightedDecl .fp32) (by decide)).2.2.1,
    index_offset_scalar_widths.2.2.2⟩

/-- Claim C10: each entry point carries exactly one `num_rows` parameter,
a launch-wide 32-bit unsigned scalar and not a per-table sequence, so
the row-bound precondition applies the same bound `num_rows` to the
indices of every table of the launch: under valid offsets, every index
gathered by any bag of any table lies in `[0, num_rows)`. -/
theorem single_num_rows_bound_uniform_across_tables :
    (∀ k ∈ declaredKernels,
        (k.params.filter fun q => q.name = "num_rows").length = 1 ∧
          paramType k "num_rows" = some (CType.scalar .u32)) ∧
      ∀ a : KernelArgs, offsetsZero a → offsetsMono a → indicesInRange a →
        ∀ t b : ℕ, t < a.num_tables → b < a.batch →
          ∀ p ∈ bagPositions a t b,
            0 ≤ a.p_indices p ∧ a.p_indices p < (a.num_rows : ℤ) := by
  refine ⟨by decide, ?_⟩
  intro a h0 hm hi t b ht hb p hp
  have hmem := mem_bagPositions a t b hp
  have hb1 : t * a.batch + b + 1 ≤ a.num_tables * a.batch := by
    have h1 : t + 1 ≤ a.num_tables := ht
    have h2 : (t + 1) * a.batch ≤ a.num_tables * a.batch :=
      Nat.mul_le_mul_right a.batch h1
    have h3 : t * a.batch + b + 1 ≤ (t + 1) * a.batch := by
      have : b + 1 ≤ a.batch := hb
      calc t * a.batch + b + 1 ≤ t * a.batch + a.batch := by omega
        _ = (t + 1) * a.batch := by ring
    omega
  have hlow : (0 : ℤ) ≤ bagStart a t b := by
    have h4 := p_offsets_chain a hm 0 (t * a.batch + b) (Nat.zero_le _) (by omega)
    rw [Nat.cast_zero] at h4
    unfold offsetsZero at h0
    unfold bagStart
    omega
  have hend : bagEnd a t b ≤ a.p_offsets ((a.num_tables * a.batch : ℕ) : ℤ) := by
    have h4 := p_offsets_chain a hm (t * a.batch + b + 1) (a.num_tables * a.batch)
      hb1 (le_refl _)
    unfold bagEnd
    exact h4
  have hse : bagStart a t b ≤ bagEnd a t b := by
    have h4 := p_offsets_chain a hm (t * a.batch + b) (t * a.batch + b + 1)
      (by omega) hb1
    unfold bagStart bagEnd
    exact h4
  have hlen : (bagLen a t b : ℤ) = bagEnd a t b - bagStart a t b := by
    unfold bagLen
    omega
  have hp0 : 0 ≤ p := by omega
  have hplt : p < a.p_offsets ((a.num_tables * a.batch : ℕ) : ℤ) := by
    omega
  have := hi p.toNat (by omega)
  rwa [Int.toNat_of_nonneg hp0] at this

/-- Witness for C10 at a concrete launch: bag 1 of the example's single
table gathers position 2, whose index is within `[0, num_rows)`. -/
theorem single_num_rows_bound_uniform_across_tables_witness :
    ((unweightedDecl .fp16).params.filter fun q => q.name = "num_rows").length = 1 ∧
      (0 ≤ exArgs.p_indices 2 ∧ exArgs.p_indices 2 < (exArgs.num_rows : ℤ)) :=
  ⟨(single_num_rows_bound_uniform_across_tables.1 (unweightedDecl .fp16) (by decide)).1,
    single_num_rows_bound_uniform_across_tables.2 exArgs (by decide) (by decide)
      (by decide) 0 1 (by decide) (by decide) 2 (by decide)⟩

/-- A smaller row block plus an in-range remainder stays below a larger
row block plus any non-negative remainder. -/
theorem mul_block_lt (x y : ℕ) (T u v : ℤ) (hxy : x < y) (hu : 0 ≤ u)
    (huT : u < T) (hv : 0 ≤ v) :
    (x : ℤ) * T + u < (y : ℤ) * T + v := by
  have hT : 0 < T := lt_of_le_of_lt hu huT
  have h1 : (x : ℤ) + 1 ≤ (y : ℤ) := by exact_mod_cast hxy
  have h2 : ((x : ℤ) + 1) * T ≤ (y : ℤ) * T :=
    mul_le_mul_of_nonneg_right h1 (le_of_lt hT)
  calc (x : ℤ) * T + u < (x : ℤ) * T + T := by linarith
    _ = ((x : ℤ) + 1) * T := by ring
    _ ≤ (y : ℤ) * T := h2
    _ ≤ (y : ℤ) * T + v := by linarith

/-- Every written element of a `(bag, table)` pair lands inside the
table's output segment. -/
theorem outPos_in_segment (a : KernelArgs) (_h : dOffsetsValid a) (b t d : ℕ)
    (_ht : t < a.num_tables) (hd : d < (tableDim a t).toNat) :
    (b : ℤ) * totalDim a + a.D_offsets (t : ℤ) ≤ outPos a b t d ∧
      outPos a b t d < (b : ℤ) * totalDim a + a.D_offsets ((t : ℤ) + 1) := by
  have hdlt : (d : ℤ) < tableDim a t := by omega
  unfold tableDim at hdlt
  unfold outPos
  constructor
  · linarith [Int.natCast_nonneg d]
  · linarith [hdlt]

/-- Each table's segment boundaries lie within one output row. -/
theorem segment_bounds (a : KernelArgs) (h : dOffsetsValid a) (t : ℕ)
    (ht : t < a.num_tables) :
    0 ≤ a.D_offsets (t : ℤ) ∧ a.D_offsets ((t : ℤ) + 1) ≤ totalDim a := by
  have h1 := d_offsets_chain a h 0 t (Nat.zero_le _) (le_of_lt ht)
  rw [Nat.cast_zero] at h1
  have h2 := d_offsets_chain a h (t + 1) a.num_tables ht (le_refl _)
  push_cast at h2
  obtain ⟨hz, _⟩ := h
  unfold totalDim
  exact ⟨by omega, h2⟩

/-- Distinct valid `(bag, table, element)` triples map to distinct output
positions. -/
theorem outPos_inj (a : KernelArgs) (h : dOffsetsValid a)
    (b t d b' t' d' : ℕ)
    (ht : t < a.num_tables) (hd : d < (tableDim a t).toNat)
    (ht' : t' < a.num_tables) (hd' : d' < (tableDim a t').toNat)
    (heq : outPos a b t d = outPos a b' t' d') :
    b = b' ∧ t = t' ∧ d = d' := by
  have hdlt : (d : ℤ) < tableDim a t := by omega
  have hdlt' : (d' : ℤ) < tableDim a t' := by omega
  have hg := segment_bounds a h t ht
  have hg' := segment_bounds a h t' ht'
  have hr0 : 0 ≤ a.D_offsets (t : ℤ) + (d : ℤ) := by
    have := hg.1
    omega
  have hrT : a.D_offsets (t : ℤ) + (d : ℤ) < totalDim a := by
    unfold tableDim at hdlt
    have := hg.2
    omega
  have hr0' : 0 ≤ a.D_offsets (t' : ℤ) + (d' : ℤ) := by
    have := hg'.1
    omega
  have hrT' : a.D_offsets (t' : ℤ) + (d' : ℤ) < totalDim a := by
    unfold tableDim at hdlt'
    have := hg'.2
    omega
  unfold outPos at heq
  have hbb : b = b' := by
    by_contra hne
    rcases Nat.lt_or_ge b b' with hlt | hge
    · have hk := mul_block_lt b b' (totalDim a) (a.D_offsets (t : ℤ) + (d : ℤ))
        (a.D_offsets (t' : ℤ) + (d' : ℤ)) hlt hr0 hrT hr0'
      linarith [heq, hk]
    · have hlt' : b' < b := by omega
      have hk := mul_block_lt b' b (totalDim a) (a.D_offsets (t' : ℤ) + (d' : ℤ))
        (a.D_offsets (t : ℤ) + (d : ℤ)) hlt' hr0' hrT' hr0
      linarith [heq, hk]
  subst hbb
  have hcancel : a.D_offsets (t : ℤ) + (d : ℤ) = a.D_offsets (t' : ℤ) + (d' : ℤ) := by
    linarith [heq]
  have htt : t = t' := by
    by_contra hne
    rcases Nat.lt_or_ge t t' with hlt | hge
    · have hchain := d_offsets_chain a h (t + 1) t' hlt (le_of_lt ht')
      push_cast at hchain
      unfold tableDim at hdlt
      omega
    · have hlt' : t' < t := by omega
      have hchain := d_offsets_chain a h (t' + 1) t hlt' (le_of_lt ht)
      push_cast at hchain
      unfold tableDim at hdlt'
      omega
  subst htt
  have hdd : d = d' := by omega
  exact ⟨rfl, rfl, hdd⟩

/-- The write positions are the triple enumeration mapped through
`outPos`. -/
theorem writePositions_eq_map (a : KernelArgs) :
    writePositions a
      = (launchTriples a).map (fun x => outPos a x.1 x.2.1 x.2.2) := by
  unfold writePositions launchTriples
  simp only [List.map_flatMap, List.map_map]
  rfl

/-- Membership in the triple enumeration is exactly validity of the
triple. -/
theorem mem_launchTriples (a : KernelArgs) (x : ℕ × ℕ × ℕ) :
    x ∈ launchTriples a ↔
      x.1 < a.batch ∧ x.2.1 < a.num_tables ∧
        x.2.2 < (tableDim a x.2.1).toNat := by
  unfold launchTriples
  constructor
  · intro hx
    rcases List.mem_flatMap.mp hx with ⟨b, hb, hx2⟩
    rcases List.mem_flatMap.mp hx2 with ⟨t, ht, hx3⟩
    rcases List.mem_map.mp hx3 with ⟨d, hd, rfl⟩
    exact ⟨List.mem_range.mp hb, List.mem_range.mp ht, List.mem_range.mp hd⟩
  · rcases x with ⟨b, t, d⟩
    rintro ⟨hb, ht, hd⟩
    exact List.mem_flatMap.mpr ⟨b, List.mem_range.mpr hb,
      List.mem_flatMap.mpr ⟨t, List.mem_range.mpr ht,
        List.mem_map.mpr ⟨d, List.mem_range.mpr hd, rfl⟩⟩⟩

/-- The triple enumeration has no duplicates. -/
theorem launchTriples_nodup (a : KernelArgs) : (launchTriples a).Nodup := by
  unfold launchTriples
  rw [List.nodup_flatMap]
  refine ⟨?_, ?_⟩
  · intro b hb
    rw [List.nodup_flatMap]
    refine ⟨?_, ?_⟩
    · intro t ht
      refine List.Nodup.map_on ?_ (List.nodup_range _)
      intro x hx y hy hxy
      exact congrArg (fun z : ℕ × ℕ × ℕ => z.2.2) hxy
    · refine List.Pairwise.imp_of_mem ?_ (List.pairwise_lt_range _)
      intro t t' htm htm' hlt z hz hz'
      rcases List.mem_map.mp hz with ⟨d1, hd1, rfl⟩
      rcases List.mem_map.mp hz' with ⟨d2, hd2, h2⟩
      have := congrArg (fun z : ℕ × ℕ × ℕ => z.2.1) h2
      simp only at this
      omega
  · refine List.Pairwise.imp_of_mem ?_ (List.pairwise_lt_range _)
    intro b b' hbm hbm' hlt z hz hz'
    rcases List.mem_flatMap.mp hz with ⟨t1, ht1, hzz⟩
    rcases List.mem_map.mp hzz with ⟨d1, hd1, rfl⟩
    rcases List.mem_flatMap.mp hz' with ⟨t2, ht2, hzz'⟩
    rcases List.mem_map.mp hzz' with ⟨d2, hd2, h2⟩
    have := congrArg (fun z : ℕ × ℕ × ℕ => z.1) h2
    simp only at this
    omega

/-- Under valid dimension offsets, each output position appears at most
once in the launch's write list. -/
theorem writePositions_nodup (a : KernelArgs) (h : dOffsetsValid a) :
    (writePositions a).Nodup := by
  rw [writePositions_eq_map]
  refine List.Nodup.map_on ?_ (launchTriples_nodup a)
  intro x hx y hy hxy
  rcases x with ⟨xb, xt, xd⟩
  rcases y with ⟨yb, yt, yd⟩
  rw [mem_launchTriples] at hx hy
  obtain ⟨h1, h2, h3⟩ := outPos_inj a h xb xt xd yb yt yd
    hx.2.1 hx.2.2 hy.2.1 hy.2.2 hxy
  subst h1
  subst h2
  subst h3
  rfl

/-- Every valid `(bag, table, element)` position is in the write list. -/
theorem outPos_mem_writePositions (a : KernelArgs) (b t d : ℕ)
    (hb : b < a.batch) (ht : t < a.num_tables)
    (hd : d < (tableDim a t).toNat) :
    outPos a b t d ∈ writePositions a := by
  rw [writePositions_eq_map]
  exact List.mem_map.mpr
    ⟨(b, t, d), (mem_launchTriples a (b, t, d)).mpr ⟨hb, ht, hd⟩, rfl⟩

/-- The positions of the kernel's writes are the write-position list. -/
theorem kernelWrites_map_fst (a : KernelArgs) (w : ℤ → ℚ)
    (mode : PoolingMode) :
    (kernelWrites a w mode).map Prod.fst = writePositions a := by
  unfold kernelWrites writePositions
  simp only [List.map_flatMap, List.map_map]
  rfl

/-- A buffer position no write names is left untouched. -/
theorem applyWrites_not_mem (out : ℤ → ℚ) (ws : List (ℤ × ℚ)) (pos : ℤ) :
    pos ∉ ws.map Prod.fst → applyWrites out ws pos = out pos := by
  induction ws generalizing out with
  | nil => intro _; rfl
  | cons hd tl ih =>
      intro hpos
      rw [List.map_cons] at hpos
      have h1 : pos ≠ hd.1 := fun hh => hpos (hh ▸ List.mem_cons_self _ _)
      have h2 : pos ∉ tl.map Prod.fst := fun hh => hpos (List.mem_cons_of_mem _ hh)
      show applyWrites (Function.update out hd.1 hd.2) tl pos = out pos
      exact (ih _ h2).trans (Function.update_noteq h1 hd.2 out)

/-- Claim C6: each gathered row is read at the table's storage offset
plus index × the table's row dimension; a bag's writes for table `t` fill
exactly the output range delimited by the cumulative dimension offsets
`[b·totalDim + D_offsets t, b·totalDim + D_offsets (t+1))`; and distinct
`(bag, table, element)` triples never share an output position, so no
table's output overlaps another's. -/
theorem multi_table_rows_and_output_segments
    (a : KernelArgs) (h : dOffsetsValid a) :
    (∀ t : ℕ, ∀ p : ℤ, ∀ d : ℕ,
        gather a t p d
          = a.p_emb_table (a.weight_offsets (t : ℤ)
              + a.p_indices p * (a.D_offsets ((t : ℤ) + 1) - a.D_offsets (t : ℤ))
              + (d : ℤ))) ∧
      (∀ b t : ℕ, t < a.num_tables → ∀ pos : ℤ,
        (∃ d : ℕ, d < (tableDim a t).toNat ∧ pos = outPos a b t d) ↔
          ((b : ℤ) * totalDim a + a.D_offsets (t : ℤ) ≤ pos ∧
            pos < (b : ℤ) * totalDim a + a.D_offsets ((t : ℤ) + 1))) ∧
      ∀ b t d b' t' d' : ℕ, t < a.num_tables → d < (tableDim a t).toNat →
        t' < a.num_tables → d' < (tableDim a t').toNat →
        (b, t, d) ≠ (b', t', d') → outPos a b t d ≠ outPos a b' t' d' := by
  refine ⟨fun t p d => rfl, ?_, ?_⟩
  · intro b t ht pos
    constructor
    · rintro ⟨d, hd, rfl⟩
      exact outPos_in_segment a h b t d ht hd
    · intro hseg
      unfold outPos tableDim
      generalize hA : (b : ℤ) * totalDim a = A at hseg ⊢
      obtain ⟨h1, h2⟩ := hseg
      refine ⟨(pos - (A + a.D_offsets (t : ℤ))).toNat, by omega, by omega⟩
  · intro b t d b' t' d' ht hd ht' hd' hne heq
    obtain ⟨h1, h2, h3⟩ := outPos_inj a h b t d b' t' d' ht hd ht' hd' heq
    exact hne (by rw [h1, h2, h3])

/-- Witness for C6 at the two-table launch (dimensions 4 and 8): element
0 of table 1 and element 3 of table 0 of the same bag land at different
output positions. -/
theorem multi_table_rows_and_output_segments_witness :
    dOffsetsValid exArgs2 ∧
      outPos exArgs2 0 1 0 ≠ outPos exArgs2 0 0 3 :=
  ⟨by decide,
    (multi_table_rows_and_output_segments exArgs2 (by decide)).2.2 0 1 0 0 0 3
      (by decide) (by decide) (by decide) (by decide) (by decide)⟩

/-- Claim C7: a launch leaves every input unmodified (it is a pure
function of its inputs that only replaces output-buffer contents), its
write positions contain no duplicates, each valid `(bag, table)`
element's position is written exactly once, and buffer positions outside
the write list keep their prior contents. -/
theorem kernel_writes_once_no_other_effects
    (s : DeviceState) (h : dOffsetsValid s.args) :
    (launchWeighted s).args = s.args ∧
      (launchWeighted s).weights = s.weights ∧
      (launchWeighted s).mode = s.mode ∧
      (writePositions s.args).Nodup ∧
      (∀ b t d : ℕ, b < s.args.batch → t < s.args.num_tables →
          d < (tableDim s.args t).toNat →
          (writePositions s.args).count (outPos s.args b t d) = 1) ∧
      ∀ pos : ℤ, pos ∉ writePositions s.args →
        (launchWeighted s).out pos = s.out pos := by
  refine ⟨rfl, rfl, rfl, writePositions_nodup s.args h, ?_, ?_⟩
  · intro b t d hb ht hd
    exact List.count_eq_one_of_mem (writePositions_nodup s.args h)
      (outPos_mem_writePositions s.args b t d hb ht hd)
  · intro pos hpos
    show applyWrites s.out (kernelWrites s.args s.weights s.mode) pos = s.out pos
    apply applyWrites_not_mem
    rw [kernelWrites_map_fst]
    exact hpos

/-- Witness for C7 at the two-table launch: the inputs survive the launch
unchanged and the last element of table 1's segment in bag 1 is written
exactly once. -/
theorem kernel_writes_once_no_other_effects_witness :
    dOffsetsValid exState2.args ∧
      (launchWeighted exState2).args = exState2.args ∧
      (writePositions exState2.args).count (outPos exState2.args 1 1 7) = 1 :=
  ⟨by decide,
    (kernel_writes_once_no_other_effects exState2 (by decide)).1,
    (kernel_writes_once_no_other_effects exState2 (by decide)).2.2.2.2.1 1 1 7
      (by decide) (by decide) (by decide)⟩

end SplitTbeFwd
